import Mathlib

/-!
Shallow embedding of the pyee `EventEmitter` core (`src/pyee/base.py`).

Python callables are modelled by identity tokens (`Key`); the behavior of the
user-supplied callable bodies is given by an environment `Env` assigning each
token a `Behavior` (return normally, or raise a user exception).  The `once`
wrapper `g` generated in `EventEmitter.once` is not a user callable: it is code
of the emitter itself, so it is modelled structurally (`Invocable.wrapper`) and
interpreted by `callInvocable` exactly as the source defines `g`.

Python's `dict` / `OrderedDict` are modelled as insertion-ordered association
lists with overwrite-in-place assignment (`aset`), matching CPython semantics
for both containers (assignment to an existing key keeps its position; new keys
append at the end; deletion removes the key).  All reachable registries have
pairwise-distinct keys, so removing every pair with the key (`aerase`) models
`pop`/`del` faithfully.

Exceptions are modelled by the `Outcome` type, which carries the state and the
trace of user-callable invocations both on normal return and on a raise,
mirroring Python semantics where side effects performed before an exception
persist while the exception propagates to the caller.

The lock is elided: the embedding is sequential, and every locked region in the
source is a single atomic step here.
-/

/-- Identity token of a user-supplied callable (Python keys listeners by object
identity). -/
abbrev Key := Nat

/-- Python values passed as positional arguments.  `exc e` is a value that is an
instance of `Exception` (with identity `e`); `Arg.none` is Python's `None`. -/
inductive Arg where
  | str (s : String)
  | fn (k : Key)
  | exc (e : Nat)
  | nat (n : Nat)
  | none
deriving DecidableEq, Repr

/-- Exceptions raised by the embedded code. -/
inductive Exc where
  /-- `PyeeError(f"Uncaught, unspecified 'error' event: {error}")`, carrying the
  interpolated payload (`args[0] if args else None`). -/
  | pyeeError (payload : Arg)
  /-- A user exception value: either `args[0]` re-raised by
  `_emit_handle_potential_error`, or an exception raised by a listener body. -/
  | user (e : Nat)
  /-- `KeyError` from `dict` subscripting or `OrderedDict.pop`. -/
  | keyError
deriving DecidableEq, Repr

/-- The invocables stored as values of the per-event `OrderedDict`.  For `on`
registrations key and value are the same callable (`plain k`); for `once` the
value is the generated closure `g` capturing `event` and the original `f`
(`wrapper event k`). -/
inductive Invocable where
  | plain (k : Key)
  | wrapper (event : String) (k : Key)
deriving DecidableEq, Repr

/-- Behavior of a user callable body when invoked: return normally, or raise
the user exception `e`. -/
inductive Behavior where
  | ret
  | raiseExc (e : Nat)
deriving DecidableEq, Repr

/-- Environment giving the behavior of every user callable. -/
abbrev Env := Key → Behavior

/-- A recorded invocation of a user callable: which callable, with which
positional and keyword arguments. -/
structure Call where
  k : Key
  args : List Arg
  kwargs : List (String × Arg)
deriving DecidableEq, Repr

/-- Association-list lookup: `l[k]` / `l.get(k)`. -/
def aget? {α β : Type} [DecidableEq α] : List (α × β) → α → Option β
  | [], _ => Option.none
  | (k, v) :: t, x => if x = k then Option.some v else aget? t x

/-- Association-list assignment `l[k] = v`: overwrite in place if the key is
present (keeping its position), else append at the end — CPython `dict` and
`OrderedDict` assignment semantics. -/
def aset {α β : Type} [DecidableEq α] : List (α × β) → α → β → List (α × β)
  | [], x, y => [(x, y)]
  | (k, v) :: t, x, y => if x = k then (x, y) :: t else (k, v) :: aset t x y

/-- Association-list deletion `del l[k]` / `l.pop(k)` (caller checks presence):
removes every pair with key `k`; on the distinct-key lists that model dicts this
removes exactly the one entry. -/
def aerase {α β : Type} [DecidableEq α] : List (α × β) → α → List (α × β)
  | [], _ => []
  | (k, v) :: t, x => if x = k then aerase t x else (k, v) :: aerase t x

/-- The emitter state: the `_events` registry, a dict from event name to an
`OrderedDict` from listener key to invocable.  (The `_lock` field is elided:
the embedding is sequential.) -/
structure EventEmitter where
  _events : List (String × List (Key × Invocable))
deriving DecidableEq, Repr

/-- Result of running embedded code: normal return with final state, trace of
user-callable invocations and a value, or an exception with the state and trace
at the moment it propagates. -/
inductive Outcome (α : Type) where
  | ok (st : EventEmitter) (tr : List Call) (val : α)
  | exn (st : EventEmitter) (tr : List Call) (e : Exc)
deriving DecidableEq, Repr

/-- `EventEmitter._remove_listener`: "naked unprotected removal".
`self._events[event].pop(f)` raises `KeyError` if `event` or `f` is absent;
then `if not len(self._events[event]): del self._events[event]`. -/
def _remove_listener (st : EventEmitter) (event : String) (f : Key) :
    Except Exc EventEmitter :=
  match aget? st._events event with
  | Option.none => Except.error Exc.keyError
  | Option.some od =>
    match aget? od f with
    | Option.none => Except.error Exc.keyError
    | Option.some _ =>
      let od2 := aerase od f
      if od2.length = 0 then Except.ok ⟨aerase st._events event⟩
      else Except.ok ⟨aset st._events event od2⟩

/-- Invoke one invocable (the body of `EventEmitter._emit_run` is just
`f(*args, **kwargs)`).  A `plain` invocable runs the user callable; a
`wrapper` invocable runs the closure `g` from `EventEmitter.once`: under the
lock, if `event in self._events and f in self._events[event]` it removes the
listener, else it returns `None` without calling `f`; then it calls `f`. -/
def callInvocable (env : Env) (st : EventEmitter) (inv : Invocable)
    (args : List Arg) (kwargs : List (String × Arg)) : Outcome Unit :=
  match inv with
  | Invocable.plain k =>
    match env k with
    | Behavior.ret => Outcome.ok st [⟨k, args, kwargs⟩] ()
    | Behavior.raiseExc e => Outcome.exn st [⟨k, args, kwargs⟩] (Exc.user e)
  | Invocable.wrapper event k =>
    match aget? st._events event with
    | Option.none => Outcome.ok st [] ()
    | Option.some od =>
      match aget? od k with
      | Option.none => Outcome.ok st [] ()
      | Option.some _ =>
        match _remove_listener st event k with
        | Except.error e => Outcome.exn st [] e
        | Except.ok st2 =>
          match env k with
          | Behavior.ret => Outcome.ok st2 [⟨k, args, kwargs⟩] ()
          | Behavior.raiseExc e => Outcome.exn st2 [⟨k, args, kwargs⟩] (Exc.user e)

/-- The `for f in funcs` loop of `EventEmitter._call_handlers`: run each
snapshotted invocable in order, setting `handled = True` after each completed
call; an exception propagates immediately with the effects so far. -/
def runFuncs (env : Env) (st : EventEmitter) (funcs : List Invocable)
    (args : List Arg) (kwargs : List (String × Arg)) (handled : Bool) :
    Outcome Bool :=
  match funcs with
  | [] => Outcome.ok st [] handled
  | f :: fs =>
    match callInvocable env st f args kwargs with
    | Outcome.exn st2 tr e => Outcome.exn st2 tr e
    | Outcome.ok st2 tr _ =>
      match runFuncs env st2 fs args kwargs true with
      | Outcome.ok st3 tr2 h => Outcome.ok st3 (tr ++ tr2) h
      | Outcome.exn st3 tr2 e => Outcome.exn st3 (tr ++ tr2) e

/-- `EventEmitter._call_handlers`: snapshot
`list(self._events.get(event, OrderedDict()).values())` under the lock, then
invoke each outside the lock; returns `handled`. -/
def _call_handlers (env : Env) (st : EventEmitter) (event : String)
    (args : List Arg) (kwargs : List (String × Arg)) : Outcome Bool :=
  let funcs := ((aget? st._events event).getD []).map Prod.snd
  runFuncs env st funcs args kwargs false

/-- `EventEmitter._emit_handle_potential_error`: for `event == "error"`, raise
`error` itself if it is an `Exception` instance, else raise
`PyeeError(f"Uncaught, unspecified 'error' event: {error}")`. -/
def _emit_handle_potential_error (event : String) (error : Arg) :
    Except Exc Unit :=
  if event = "error" then
    match error with
    | Arg.exc e => Except.error (Exc.user e)
    | a => Except.error (Exc.pyeeError a)
  else Except.ok ()

/-- `EventEmitter.emit`: call the handlers; if none handled, apply the
potential-error policy to `args[0] if args else None`; return `handled`. -/
def emit (env : Env) (st : EventEmitter) (event : String)
    (args : List Arg) (kwargs : List (String × Arg)) : Outcome Bool :=
  match _call_handlers env st event args kwargs with
  | Outcome.exn st2 tr e => Outcome.exn st2 tr e
  | Outcome.ok st2 tr handled =>
    if handled then Outcome.ok st2 tr true
    else
      match _emit_handle_potential_error event (args.headD Arg.none) with
      | Except.ok _ => Outcome.ok st2 tr false
      | Except.error e => Outcome.exn st2 tr e

/-- The locked insertion step of `EventEmitter._add_event_handler`:
`if event not in self._events: self._events[event] = OrderedDict()` followed by
`self._events[event][k] = v`. -/
def insertListener (st : EventEmitter) (event : String) (k : Key)
    (v : Invocable) : EventEmitter :=
  ⟨aset st._events event (aset ((aget? st._events event).getD []) k v)⟩

/-- `EventEmitter._add_event_handler`: fire `new_listener` with `(event, k)`
*before* adding the new listener, then insert under the lock. -/
def _add_event_handler (env : Env) (st : EventEmitter) (event : String)
    (k : Key) (v : Invocable) : Outcome Unit :=
  match emit env st "new_listener" [Arg.str event, Arg.fn k] [] with
  | Outcome.exn st2 tr e => Outcome.exn st2 tr e
  | Outcome.ok st2 tr _ => Outcome.ok (insertListener st2 event k v) tr ()

/-- `EventEmitter.add_listener`: `self._add_event_handler(event, f, f)`,
returning `f`. -/
def add_listener (env : Env) (st : EventEmitter) (event : String) (f : Key) :
    Outcome Key :=
  match _add_event_handler env st event f (Invocable.plain f) with
  | Outcome.ok st2 tr _ => Outcome.ok st2 tr f
  | Outcome.exn st2 tr e => Outcome.exn st2 tr e

/-- `EventEmitter.on` with the listener supplied (the non-decorator path):
delegates to `add_listener`. -/
def on_ (env : Env) (st : EventEmitter) (event : String) (f : Key) :
    Outcome Key :=
  add_listener env st event f

/-- `EventEmitter.once` with the listener supplied: registers the original `f`
as key with the self-removing wrapper `g` as value, returning `f`. -/
def once (env : Env) (st : EventEmitter) (event : String) (f : Key) :
    Outcome Key :=
  match _add_event_handler env st event f (Invocable.wrapper event f) with
  | Outcome.ok st2 tr _ => Outcome.ok st2 tr f
  | Outcome.exn st2 tr e => Outcome.exn st2 tr e

/-- `EventEmitter.remove_listener`: `self._remove_listener(event, f)` under the
lock. -/
def remove_listener (st : EventEmitter) (event : String) (f : Key) :
    Except Exc EventEmitter :=
  _remove_listener st event f

/-- `EventEmitter.remove_all_listeners`: if an event is given,
`self._events[event] = OrderedDict()`; else `self._events = dict()`. -/
def remove_all_listeners (st : EventEmitter) (event : Option String) :
    EventEmitter :=
  match event with
  | Option.some ev => ⟨aset st._events ev []⟩
  | Option.none => ⟨[]⟩

/-- `EventEmitter.event_names`: `set(self._events.keys())`.  The registry keys
are pairwise distinct, so the key list represents the set. -/
def event_names (st : EventEmitter) : List String :=
  st._events.map Prod.fst

/-- `EventEmitter.listeners`:
`list(self._events.get(event, OrderedDict()).keys())`. -/
def listeners (st : EventEmitter) (event : String) : List Key :=
  ((aget? st._events event).getD []).map Prod.fst

/-! ## Association-list lemmas -/

theorem aget?_aset_self {α β : Type} [DecidableEq α] (l : List (α × β))
    (k : α) (v : β) : aget? (aset l k v) k = Option.some v := by
  induction l with
  | nil => simp [aset, aget?]
  | cons p t ih =>
    by_cases h : k = p.1 <;> simp [aset, aget?, h, ih]

theorem aget?_aset_other {α β : Type} [DecidableEq α] (l : List (α × β))
    (k x : α) (v : β) (h : x ≠ k) : aget? (aset l k v) x = aget? l x := by
  induction l with
  | nil => simp [aset, aget?, h]
  | cons p t ih =>
    by_cases hk : k = p.1
    · subst hk
      simp [aset, aget?, h]
    · by_cases hx : x = p.1 <;> simp [aset, aget?, hk, hx, ih]

theorem aget?_aerase_self {α β : Type} [DecidableEq α] (l : List (α × β))
    (k : α) : aget? (aerase l k) k = Option.none := by
  induction l with
  | nil => simp [aerase, aget?]
  | cons p t ih =>
    by_cases h : k = p.1
    · subst h
      simpa [aerase] using ih
    · simp [aerase, aget?, h, ih]

theorem aget?_aerase_other {α β : Type} [DecidableEq α] (l : List (α × β))
    (k x : α) (h : x ≠ k) : aget? (aerase l k) x = aget? l x := by
  induction l with
  | nil => simp [aerase]
  | cons p t ih =>
    by_cases hk : k = p.1
    · subst hk
      simp [aerase, aget?, h, ih]
    · by_cases hx : x = p.1 <;> simp [aerase, aget?, hk, hx, ih]

theorem aset_of_absent {α β : Type} [DecidableEq α] (l : List (α × β))
    (k : α) (v : β) (h : aget? l k = Option.none) :
    aset l k v = l ++ [(k, v)] := by
  induction l with
  | nil => simp [aset]
  | cons p t ih =>
    by_cases hk : k = p.1
    · simp [aget?, hk] at h
    · simp [aget?, hk] at h
      simp [aset, hk, ih h]

theorem aerase_of_absent {α β : Type} [DecidableEq α] (l : List (α × β))
    (k : α) (h : aget? l k = Option.none) : aerase l k = l := by
  induction l with
  | nil => simp [aerase]
  | cons p t ih =>
    by_cases hk : k = p.1
    · simp [aget?, hk] at h
    · simp [aget?, hk] at h
      simp [aerase, hk, ih h]

theorem aerase_append {α β : Type} [DecidableEq α] (l1 l2 : List (α × β))
    (k : α) : aerase (l1 ++ l2) k = aerase l1 k ++ aerase l2 k := by
  induction l1 with
  | nil => simp [aerase]
  | cons p t ih =>
    by_cases hk : k = p.1
    · subst hk
      simpa [aerase] using ih
    · simp [aerase, hk, ih]

theorem mem_keys_aerase {α β : Type} [DecidableEq α] (l : List (α × β))
    (k x : α) (h : x ∈ (aerase l k).map Prod.fst) : x ∈ l.map Prod.fst := by
  induction l with
  | nil => simp [aerase] at h
  | cons p t ih =>
    obtain ⟨a, b⟩ := p
    by_cases hk : k = a
    · subst hk
      simp only [aerase, if_pos rfl] at h
      simp only [List.map_cons, List.mem_cons]
      exact Or.inr (ih h)
    · simp only [aerase, if_neg hk, List.map_cons, List.mem_cons] at h
      simp only [List.map_cons, List.mem_cons]
      rcases h with h | h
      · exact Or.inl h
      · exact Or.inr (ih h)

/-! ## Helper lemmas about dispatch and registration -/

/-- `emit` on an event with an empty snapshot and any non-`"error"` name:
returns `False`, no effects, no failure. -/
theorem emit_no_handlers_ok (env : Env) (st : EventEmitter) (event : String)
    (args : List Arg) (kwargs : List (String × Arg))
    (h : (aget? st._events event).getD [] = []) (hev : event ≠ "error") :
    emit env st event args kwargs = Outcome.ok st [] false := by
  simp [emit, _call_handlers, h, runFuncs, _emit_handle_potential_error, hev]

/-- `emit "error"` with an empty snapshot and an `Exception` first argument:
re-raises that argument. -/
theorem emit_no_handlers_error_exc (env : Env) (st : EventEmitter)
    (args : List Arg) (kwargs : List (String × Arg)) (x : Nat)
    (h : (aget? st._events "error").getD [] = [])
    (harg : args.headD Arg.none = Arg.exc x) :
    emit env st "error" args kwargs = Outcome.exn st [] (Exc.user x) := by
  have harg2 : args.head?.getD Arg.none = Arg.exc x := by
    simpa [List.headD_eq_head?_getD] using harg
  simp [emit, _call_handlers, h, runFuncs, _emit_handle_potential_error, harg2]

/-- `emit "error"` with an empty snapshot and a non-`Exception` first argument
(or no argument): raises the `PyeeError` carrying the payload. -/
theorem emit_no_handlers_error_other (env : Env) (st : EventEmitter)
    (args : List Arg) (kwargs : List (String × Arg))
    (h : (aget? st._events "error").getD [] = [])
    (harg : ∀ x, args.headD Arg.none ≠ Arg.exc x) :
    emit env st "error" args kwargs =
      Outcome.exn st [] (Exc.pyeeError (args.headD Arg.none)) := by
  cases hd : args.headD Arg.none with
  | exc x => exact absurd hd (harg x)
  | str s =>
    have hd2 : args.head?.getD Arg.none = Arg.str s := by
      simpa [List.headD_eq_head?_getD] using hd
    simp [emit, _call_handlers, h, runFuncs, _emit_handle_potential_error, hd,
      hd2]
  | fn k =>
    have hd2 : args.head?.getD Arg.none = Arg.fn k := by
      simpa [List.headD_eq_head?_getD] using hd
    simp [emit, _call_handlers, h, runFuncs, _emit_handle_potential_error, hd,
      hd2]
  | nat n =>
    have hd2 : args.head?.getD Arg.none = Arg.nat n := by
      simpa [List.headD_eq_head?_getD] using hd
    simp [emit, _call_handlers, h, runFuncs, _emit_handle_potential_error, hd,
      hd2]
  | none =>
    have hd2 : args.head?.getD Arg.none = Arg.none := by
      simpa [List.headD_eq_head?_getD] using hd
    simp [emit, _call_handlers, h, runFuncs, _emit_handle_potential_error, hd,
      hd2]

/-- Registration when no `new_listener` handlers are attached: the
`new_listener` emission is a no-op, and the listener is inserted. -/
theorem add_event_handler_quiet (env : Env) (st : EventEmitter) (event : String)
    (k : Key) (v : Invocable)
    (h2 : (aget? st._events "new_listener").getD [] = []) :
    _add_event_handler env st event k v =
      Outcome.ok (insertListener st event k v) [] () := by
  have hne : ("new_listener" : String) ≠ "error" := by decide
  have he := emit_no_handlers_ok env st "new_listener"
    [Arg.str event, Arg.fn k] [] h2 hne
  simp [_add_event_handler, he]

/-- `on` on a fresh event with no `new_listener` handlers. -/
theorem on_quiet (env : Env) (st : EventEmitter) (event : String) (f : Key)
    (h1 : aget? st._events event = Option.none)
    (h2 : (aget? st._events "new_listener").getD [] = []) :
    on_ env st event f =
      Outcome.ok ⟨aset st._events event [(f, Invocable.plain f)]⟩ [] f := by
  have hadd := add_event_handler_quiet env st event f (Invocable.plain f) h2
  simp [on_, add_listener, hadd, insertListener, h1, aset]

/-- `once` on a fresh event with no `new_listener` handlers. -/
theorem once_quiet (env : Env) (st : EventEmitter) (event : String) (f : Key)
    (h1 : aget? st._events event = Option.none)
    (h2 : (aget? st._events "new_listener").getD [] = []) :
    once env st event f =
      Outcome.ok ⟨aset st._events event [(f, Invocable.wrapper event f)]⟩
        [] f := by
  have hadd := add_event_handler_quiet env st event f
    (Invocable.wrapper event f) h2
  simp [once, hadd, insertListener, h1, aset]

/-- `emit` on an event whose only handler is a plain (`on`-registered)
listener that returns normally: it is called once with the emitted arguments,
the registry is untouched, and `emit` returns `True`. -/
theorem emit_single_plain (env : Env) (st : EventEmitter) (event : String)
    (f : Key) (args : List Arg) (kwargs : List (String × Arg))
    (h : aget? st._events event = Option.some [(f, Invocable.plain f)])
    (h3 : env f = Behavior.ret) :
    emit env st event args kwargs = Outcome.ok st [⟨f, args, kwargs⟩] true := by
  simp [emit, _call_handlers, h, runFuncs, callInvocable, h3]

/-- `emit` on an event whose only handler is a `once` wrapper whose listener
returns normally: the wrapper removes the registration (deleting the event key,
as the collection becomes empty) and then calls the listener once. -/
theorem emit_single_wrapper (env : Env) (st : EventEmitter) (event : String)
    (f : Key) (args : List Arg) (kwargs : List (String × Arg))
    (h : aget? st._events event = Option.some [(f, Invocable.wrapper event f)])
    (h3 : env f = Behavior.ret) :
    emit env st event args kwargs =
      Outcome.ok ⟨aerase st._events event⟩ [⟨f, args, kwargs⟩] true := by
  simp [emit, _call_handlers, h, runFuncs, callInvocable, _remove_listener,
    aget?, aerase, h3]

/-! ## Non-raising handlers -/

/-- An invocable whose underlying user callable returns normally. -/
def nonRaising (env : Env) : Invocable → Prop
  | Invocable.plain k => env k = Behavior.ret
  | Invocable.wrapper _ k => env k = Behavior.ret

theorem callInvocable_ok_of_nonRaising (env : Env) (st : EventEmitter)
    (inv : Invocable) (args : List Arg) (kwargs : List (String × Arg))
    (h : nonRaising env inv) :
    ∃ st2 tr, callInvocable env st inv args kwargs = Outcome.ok st2 tr () := by
  cases inv with
  | plain k =>
    simp only [nonRaising] at h
    exact ⟨st, [⟨k, args, kwargs⟩], by simp [callInvocable, h]⟩
  | wrapper event k =>
    simp only [nonRaising] at h
    cases hev : aget? st._events event with
    | none => exact ⟨st, [], by simp [callInvocable, hev]⟩
    | some od =>
      cases hf : aget? od k with
      | none => exact ⟨st, [], by simp [callInvocable, hev, hf]⟩
      | some v =>
        by_cases hlen : (aerase od k).length = 0
        · exact ⟨⟨aerase st._events event⟩, [⟨k, args, kwargs⟩],
            by simp [callInvocable, hev, hf, _remove_listener, hlen, h]⟩
        · exact ⟨⟨aset st._events event (aerase od k)⟩, [⟨k, args, kwargs⟩],
            by simp [callInvocable, hev, hf, _remove_listener, hlen, h]⟩

theorem runFuncs_ok_of_nonRaising (env : Env) (args : List Arg)
    (kwargs : List (String × Arg)) :
    ∀ (funcs : List Invocable) (st : EventEmitter) (handled : Bool),
      (∀ inv ∈ funcs, nonRaising env inv) → funcs ≠ [] →
      ∃ st2 tr,
        runFuncs env st funcs args kwargs handled = Outcome.ok st2 tr true := by
  intro funcs
  induction funcs with
  | nil => intro st handled _ hne; exact absurd rfl hne
  | cons f fs ih =>
    intro st handled hall _
    obtain ⟨st2, tr, hc⟩ :=
      callInvocable_ok_of_nonRaising env st f args kwargs (hall f (by simp))
    cases fs with
    | nil => exact ⟨st2, tr, by simp [runFuncs, hc]⟩
    | cons g gs =>
      obtain ⟨st3, tr2, hr⟩ :=
        ih st2 true (fun i hi => hall i (by simp [hi])) (by simp)
      exact ⟨st3, tr ++ tr2, by rw [runFuncs, hc]; simp [hr]⟩

/-- `emit` on an event with at least one handler, all of whose user callables
return normally: completes without failure and returns `True`. -/
theorem emit_ok_of_nonRaising (env : Env) (st : EventEmitter) (event : String)
    (args : List Arg) (kwargs : List (String × Arg))
    (od : List (Key × Invocable))
    (h : aget? st._events event = Option.some od) (hne : od ≠ [])
    (hall : ∀ p ∈ od, nonRaising env p.2) :
    ∃ st2 tr, emit env st event args kwargs = Outcome.ok st2 tr true := by
  obtain ⟨st2, tr, hr⟩ :=
    runFuncs_ok_of_nonRaising env args kwargs (od.map Prod.snd) st false
      (by
        intro inv hi
        obtain ⟨p, hp, rfl⟩ := List.mem_map.mp hi
        exact hall p hp)
      (by
        intro hmap
        exact hne (List.map_eq_nil_iff.mp hmap))
  exact ⟨st2, tr, by simp [emit, _call_handlers, h, hr]⟩

/-! ## Registry monotonicity during dispatch -/

/-- The emitter state an outcome ends in (normal or exceptional). -/
def Outcome.state {α : Type} : Outcome α → EventEmitter
  | Outcome.ok st _ _ => st
  | Outcome.exn st _ _ => st

/-- `st2`'s registry only ever shrinks relative to `st`: every listener key
registered in `st2` was registered in `st`. -/
def subListeners (st2 st : EventEmitter) : Prop :=
  ∀ ev k, k ∈ listeners st2 ev → k ∈ listeners st ev

theorem subListeners_refl (st : EventEmitter) : subListeners st st :=
  fun _ _ h => h

theorem subListeners_trans {a b c : EventEmitter} (h1 : subListeners a b)
    (h2 : subListeners b c) : subListeners a c :=
  fun ev k h => h2 ev k (h1 ev k h)

theorem remove_listener_sub (st : EventEmitter) (event : String) (f : Key)
    (st2 : EventEmitter) (h : _remove_listener st event f = Except.ok st2) :
    subListeners st2 st := by
  unfold _remove_listener at h
  cases hev : aget? st._events event with
  | none => simp [hev] at h
  | some od =>
    cases hf : aget? od f with
    | none => simp [hev, hf] at h
    | some v =>
      by_cases hlen : (aerase od f).length = 0
      · simp [hev, hf, hlen] at h
        intro ev k hk
        by_cases hev2 : ev = event
        · subst hev2
          rw [← h] at hk
          simp [listeners, aget?_aerase_self] at hk
        · rw [← h] at hk
          simpa [listeners, aget?_aerase_other _ _ _ hev2] using hk
      · simp [hev, hf, hlen] at h
        intro ev k hk
        by_cases hev2 : ev = event
        · subst hev2
          rw [← h] at hk
          simp only [listeners, aget?_aset_self, Option.getD_some] at hk
          simpa [listeners, hev] using mem_keys_aerase od f k hk
        · rw [← h] at hk
          simpa [listeners, aget?_aset_other _ _ _ _ hev2] using hk

theorem callInvocable_sub (env : Env) (st : EventEmitter) (inv : Invocable)
    (args : List Arg) (kwargs : List (String × Arg)) :
    subListeners (callInvocable env st inv args kwargs).state st := by
  cases inv with
  | plain k =>
    cases henv : env k <;>
      simp [callInvocable, henv, Outcome.state, subListeners_refl]
  | wrapper event k =>
    cases hev : aget? st._events event with
    | none => simp [callInvocable, hev, Outcome.state, subListeners_refl]
    | some od =>
      cases hf : aget? od k with
      | none => simp [callInvocable, hev, hf, Outcome.state, subListeners_refl]
      | some v =>
        cases hrem : _remove_listener st event k with
        | error e =>
          simp [callInvocable, hev, hf, hrem, Outcome.state, subListeners_refl]
        | ok st2 =>
          have hsub := remove_listener_sub st event k st2 hrem
          cases henv : env k <;>
            simp [callInvocable, hev, hf, hrem, henv, Outcome.state, hsub]

theorem runFuncs_sub (env : Env) (args : List Arg)
    (kwargs : List (String × Arg)) :
    ∀ (funcs : List Invocable) (st : EventEmitter) (handled : Bool),
      subListeners (runFuncs env st funcs args kwargs handled).state st := by
  intro funcs
  induction funcs with
  | nil =>
    intro st handled
    simp [runFuncs, Outcome.state, subListeners_refl]
  | cons f fs ih =>
    intro st handled
    have hc := callInvocable_sub env st f args kwargs
    cases hcc : callInvocable env st f args kwargs with
    | exn st2 tr e =>
      rw [hcc] at hc
      simp only [Outcome.state] at hc
      rw [runFuncs, hcc]
      exact hc
    | ok st2 tr v =>
      rw [hcc] at hc
      simp only [Outcome.state] at hc
      have hr := ih st2 true
      cases hrr : runFuncs env st2 fs args kwargs true with
      | ok st3 tr2 h2 =>
        rw [hrr] at hr
        simp only [Outcome.state] at hr
        rw [runFuncs, hcc]
        simp only [hrr]
        exact subListeners_trans hr hc
      | exn st3 tr2 e =>
        rw [hrr] at hr
        simp only [Outcome.state] at hr
        rw [runFuncs, hcc]
        simp only [hrr]
        exact subListeners_trans hr hc

theorem emit_sub (env : Env) (st : EventEmitter) (event : String)
    (args : List Arg) (kwargs : List (String × Arg)) :
    subListeners (emit env st event args kwargs).state st := by
  have h := runFuncs_sub env args kwargs
    (((aget? st._events event).getD []).map Prod.snd) st false
  cases hr : runFuncs env st (((aget? st._events event).getD []).map Prod.snd)
      args kwargs false with
  | exn st2 tr e =>
    rw [hr] at h
    simp only [Outcome.state] at h
    simpa [emit, _call_handlers, hr, Outcome.state] using h
  | ok st2 tr handled =>
    rw [hr] at h
    simp only [Outcome.state] at h
    by_cases hh : handled = true
    · simpa [emit, _call_handlers, hr, hh, Outcome.state] using h
    · cases he : _emit_handle_potential_error event (args.headD Arg.none) with
      | ok u =>
        have he2 : _emit_handle_potential_error event
            (args.head?.getD Arg.none) = Except.ok u := by
          simpa [List.headD_eq_head?_getD] using he
        simpa [emit, _call_handlers, hr, hh, he2, Outcome.state] using h
      | error e =>
        have he2 : _emit_handle_potential_error event
            (args.head?.getD Arg.none) = Except.error e := by
          simpa [List.headD_eq_head?_getD] using he
        simpa [emit, _call_handlers, hr, hh, he2, Outcome.state] using h

/-! ## Plain handlers never mutate the registry -/

theorem runFuncs_plain_state (env : Env) (args : List Arg)
    (kwargs : List (String × Arg)) :
    ∀ (funcs : List Invocable) (st : EventEmitter) (handled : Bool),
      (∀ inv ∈ funcs, ∃ k, inv = Invocable.plain k) →
      (runFuncs env st funcs args kwargs handled).state = st := by
  intro funcs
  induction funcs with
  | nil => intro st handled _; simp [runFuncs, Outcome.state]
  | cons f fs ih =>
    intro st handled hall
    obtain ⟨k, rfl⟩ := hall f (by simp)
    cases henv : env k with
    | ret =>
      have hr := ih st true (fun i hi => hall i (by simp [hi]))
      cases hrr : runFuncs env st fs args kwargs true with
      | ok st3 tr2 h2 =>
        rw [hrr] at hr
        simp only [Outcome.state] at hr
        rw [runFuncs]
        simp only [callInvocable, henv, hrr, Outcome.state]
        exact hr
      | exn st3 tr2 e =>
        rw [hrr] at hr
        simp only [Outcome.state] at hr
        rw [runFuncs]
        simp only [callInvocable, henv, hrr, Outcome.state]
        exact hr
    | raiseExc e =>
      rw [runFuncs]
      simp only [callInvocable, henv, Outcome.state]

/-- The state `emit` ends in (normally or exceptionally) is the state its
handler loop ends in: the potential-error policy mutates nothing. -/
theorem emit_state_eq (env : Env) (st : EventEmitter) (event : String)
    (args : List Arg) (kwargs : List (String × Arg)) :
    (emit env st event args kwargs).state =
      (runFuncs env st (((aget? st._events event).getD []).map Prod.snd)
        args kwargs false).state := by
  cases hr : runFuncs env st (((aget? st._events event).getD []).map Prod.snd)
      args kwargs false with
  | exn st2 tr e => simp [emit, _call_handlers, hr, Outcome.state]
  | ok st2 tr handled =>
    by_cases hh : handled = true
    · simp [emit, _call_handlers, hr, hh, Outcome.state]
    · cases he : _emit_handle_potential_error event
          (args.head?.getD Arg.none) with
      | ok u => simp [emit, _call_handlers, hr, hh, he, Outcome.state]
      | error e => simp [emit, _call_handlers, hr, hh, he, Outcome.state]

/-- If every handler attached to `event` is a plain (`on`-registered) listener,
`emit event` leaves the registry exactly as it was, whether or not a listener
raises. -/
theorem emit_plain_state (env : Env) (st : EventEmitter) (event : String)
    (args : List Arg) (kwargs : List (String × Arg))
    (od : List (Key × Invocable))
    (hod : aget? st._events event = Option.some od)
    (hall : ∀ p ∈ od, ∃ k, p.2 = Invocable.plain k) :
    (emit env st event args kwargs).state = st := by
  have h := runFuncs_plain_state env args kwargs (od.map Prod.snd) st false
    (by
      intro inv hi
      obtain ⟨p, hp, rfl⟩ := List.mem_map.mp hi
      exact hall p hp)
  rw [emit_state_eq, hod]
  simpa using h

/-! ## Claims -/

/-- C1: For every event with no registered listeners, `emit(event, *a)` returns
`False` and raises no failure, except when `event == "error"`: then `emit`
raises a failure — the first positional argument itself if it is an exception
value, otherwise a generic `PyeeError` "uncaught error" failure carrying the
payload (`args[0] if args else None`); and `emit "error"` with an error
listener attached (one that returns normally) does not raise. -/
theorem c1_emit_unheard_error_policy (env : Env) (st : EventEmitter)
    (event : String) (args : List Arg) (kwargs : List (String × Arg))
    (hno : (aget? st._events event).getD [] = []) :
    (event ≠ "error" → emit env st event args kwargs = Outcome.ok st [] false) ∧
    (event = "error" → ∀ x, args.headD Arg.none = Arg.exc x →
        emit env st event args kwargs = Outcome.exn st [] (Exc.user x)) ∧
    (event = "error" → (∀ x, args.headD Arg.none ≠ Arg.exc x) →
        emit env st event args kwargs =
          Outcome.exn st [] (Exc.pyeeError (args.headD Arg.none))) ∧
    (∀ st2 od, aget? st2._events "error" = Option.some od → od ≠ [] →
        (∀ p ∈ od, nonRaising env p.2) →
        ∃ st3 tr, emit env st2 "error" args kwargs = Outcome.ok st3 tr true) := by
  refine ⟨?_, ?_, ?_, ?_⟩
  · intro hev
    exact emit_no_handlers_ok env st event args kwargs hno hev
  · intro hev x harg
    subst hev
    exact emit_no_handlers_error_exc env st args kwargs x hno harg
  · intro hev harg
    subst hev
    exact emit_no_handlers_error_other env st args kwargs hno harg
  · intro st2 od hod hne hall
    exact emit_ok_of_nonRaising env st2 "error" args kwargs od hod hne hall

theorem c1_witness :
    emit (fun _ => Behavior.ret) ⟨[]⟩ "data" [Arg.nat 1] [] =
        Outcome.ok ⟨[]⟩ [] false ∧
    emit (fun _ => Behavior.ret) ⟨[]⟩ "error" [Arg.exc 5] [] =
        Outcome.exn ⟨[]⟩ [] (Exc.user 5) ∧
    emit (fun _ => Behavior.ret) ⟨[]⟩ "error" [Arg.nat 3] [] =
        Outcome.exn ⟨[]⟩ [] (Exc.pyeeError (Arg.nat 3)) ∧
    (∃ st3 tr, emit (fun _ => Behavior.ret)
        ⟨[("error", [(0, Invocable.plain 0)])]⟩ "error" [Arg.nat 3] [] =
        Outcome.ok st3 tr true) := by
  refine ⟨?_, ?_, ?_, ?_⟩
  · exact (c1_emit_unheard_error_policy (fun _ => Behavior.ret) ⟨[]⟩ "data"
      [Arg.nat 1] [] (by decide)).1 (by decide)
  · exact (c1_emit_unheard_error_policy (fun _ => Behavior.ret) ⟨[]⟩ "error"
      [Arg.exc 5] [] (by decide)).2.1 rfl 5 (by decide)
  · exact (c1_emit_unheard_error_policy (fun _ => Behavior.ret) ⟨[]⟩ "error"
      [Arg.nat 3] [] (by decide)).2.2.1 rfl (fun x hx => by simp at hx)
  · exact (c1_emit_unheard_error_policy (fun _ => Behavior.ret) ⟨[]⟩ "error"
      [Arg.nat 3] [] (by decide)).2.2.2
      ⟨[("error", [(0, Invocable.plain 0)])]⟩ [(0, Invocable.plain 0)]
      (by decide) (by decide)
      (fun p hp => by
        simp only [List.mem_singleton] at hp
        subst hp
        exact rfl)

/-- C2: After `on(event, f)` on an emitter with no listeners for `event` (and
no `new_listener` handlers, so registration itself fires nothing), a single
`emit(event, *a, **kw)` invokes `f` exactly once with exactly those arguments
and returns `True`. -/
theorem c2_on_then_emit_invokes_once (env : Env) (st : EventEmitter)
    (event : String) (f : Key) (args : List Arg) (kwargs : List (String × Arg))
    (h1 : aget? st._events event = Option.none)
    (h2 : (aget? st._events "new_listener").getD [] = [])
    (h3 : env f = Behavior.ret) :
    on_ env st event f =
      Outcome.ok ⟨aset st._events event [(f, Invocable.plain f)]⟩ [] f ∧
    emit env ⟨aset st._events event [(f, Invocable.plain f)]⟩ event args
        kwargs =
      Outcome.ok ⟨aset st._events event [(f, Invocable.plain f)]⟩
        [⟨f, args, kwargs⟩] true := by
  refine ⟨on_quiet env st event f h1 h2, ?_⟩
  exact emit_single_plain env _ event f args kwargs
    (by simp [aget?_aset_self]) h3

theorem c2_witness :
    on_ (fun _ => Behavior.ret) ⟨[]⟩ "greet" 0 =
      Outcome.ok ⟨[("greet", [(0, Invocable.plain 0)])]⟩ [] 0 ∧
    emit (fun _ => Behavior.ret) ⟨[("greet", [(0, Invocable.plain 0)])]⟩
        "greet" [Arg.str "hi"] [] =
      Outcome.ok ⟨[("greet", [(0, Invocable.plain 0)])]⟩
        [⟨0, [Arg.str "hi"], []⟩] true := by
  exact c2_on_then_emit_invokes_once (fun _ => Behavior.ret) ⟨[]⟩ "greet" 0
    [Arg.str "hi"] [] (by decide) (by decide) rfl

/-- C3: A listener registered via `once(event, f)` is invoked at most once:
the first `emit(event)` that fires it removes its registration (the wrapper
removes the entry under the lock before delegating to `f`, and the event key
is deleted as its collection empties — the final state is the
pre-registration state), so a subsequent `emit(event)` does not invoke `f`
again (its trace is empty) and returns `False` when `f` was the only listener
(for the special `"error"` event the unheard emit raises instead, per the
spec's global `error` policy). -/
theorem c3_once_at_most_once (env : Env) (st : EventEmitter) (event : String)
    (f : Key) (args args2 : List Arg) (kwargs kwargs2 : List (String × Arg))
    (h1 : aget? st._events event = Option.none)
    (h2 : (aget? st._events "new_listener").getD [] = [])
    (h3 : env f = Behavior.ret) :
    once env st event f =
      Outcome.ok ⟨aset st._events event [(f, Invocable.wrapper event f)]⟩
        [] f ∧
    emit env ⟨aset st._events event [(f, Invocable.wrapper event f)]⟩ event
        args kwargs = Outcome.ok st [⟨f, args, kwargs⟩] true ∧
    (event ≠ "error" →
        emit env st event args2 kwargs2 = Outcome.ok st [] false) ∧
    (event = "error" →
        ∃ e, emit env st event args2 kwargs2 = Outcome.exn st [] e) := by
  refine ⟨once_quiet env st event f h1 h2, ?_, ?_, ?_⟩
  · have hfinal : aerase (aset st._events event
        [(f, Invocable.wrapper event f)]) event = st._events := by
      rw [aset_of_absent st._events event _ h1, aerase_append,
        aerase_of_absent st._events event h1]
      simp [aerase]
    have := emit_single_wrapper env
      ⟨aset st._events event [(f, Invocable.wrapper event f)]⟩ event f args
      kwargs (by simp [aget?_aset_self]) h3
    rwa [hfinal] at this
  · intro hev
    exact emit_no_handlers_ok env st event args2 kwargs2 (by simp [h1]) hev
  · intro hev
    subst hev
    cases hd : args2.headD Arg.none with
    | exc x =>
      exact ⟨Exc.user x,
        emit_no_handlers_error_exc env st args2 kwargs2 x (by simp [h1]) hd⟩
    | str s =>
      refine ⟨Exc.pyeeError (Arg.str s), ?_⟩
      have := emit_no_handlers_error_other env st args2 kwargs2
        (by simp [h1]) (by intro x hx; rw [hd] at hx; simp at hx)
      rwa [hd] at this
    | fn k =>
      refine ⟨Exc.pyeeError (Arg.fn k), ?_⟩
      have := emit_no_handlers_error_other env st args2 kwargs2
        (by simp [h1]) (by intro x hx; rw [hd] at hx; simp at hx)
      rwa [hd] at this
    | nat n =>
      refine ⟨Exc.pyeeError (Arg.nat n), ?_⟩
      have := emit_no_handlers_error_other env st args2 kwargs2
        (by simp [h1]) (by intro x hx; rw [hd] at hx; simp at hx)
      rwa [hd] at this
    | none =>
      refine ⟨Exc.pyeeError Arg.none, ?_⟩
      have := emit_no_handlers_error_other env st args2 kwargs2
        (by simp [h1]) (by intro x hx; rw [hd] at hx; simp at hx)
      rwa [hd] at this

theorem c3_witness :
    once (fun _ => Behavior.ret) ⟨[]⟩ "x" 4 =
      Outcome.ok ⟨[("x", [(4, Invocable.wrapper "x" 4)])]⟩ [] 4 ∧
    emit (fun _ => Behavior.ret) ⟨[("x", [(4, Invocable.wrapper "x" 4)])]⟩
        "x" [] [] = Outcome.ok ⟨[]⟩ [⟨4, [], []⟩] true ∧
    emit (fun _ => Behavior.ret) ⟨[]⟩ "x" [] [] =
      Outcome.ok ⟨[]⟩ [] false := by
  have h := c3_once_at_most_once (fun _ => Behavior.ret) ⟨[]⟩ "x" 4 [] [] []
    [] (by decide) (by decide) rfl
  exact ⟨h.1, h.2.1, h.2.2.1 (by decide)⟩

/-- A key is among an association list's keys exactly when lookup finds it. -/
theorem mem_keys_iff_aget? {α β : Type} [DecidableEq α] (l : List (α × β))
    (k : α) : k ∈ l.map Prod.fst ↔ aget? l k ≠ Option.none := by
  induction l with
  | nil => simp [aget?]
  | cons p t ih =>
    obtain ⟨a, b⟩ := p
    by_cases hk : k = a
    · subst hk
      simp [aget?]
    · simp [aget?, hk, ih]

/-- C4 is refuted by the code: `remove_all_listeners("a")` after `on("a", f)`
leaves the key `"a"` in the registry, mapped to an *empty* collection — the
key is not removed and the no-empty-collection invariant is broken. -/
theorem c4_counterexample :
    remove_all_listeners ⟨[("a", [(0, Invocable.plain 0)])]⟩
        (Option.some "a") = ⟨[("a", [])]⟩ ∧
    aget? (remove_all_listeners ⟨[("a", [(0, Invocable.plain 0)])]⟩
        (Option.some "a"))._events "a" ≠ Option.none := by
  refine ⟨rfl, ?_⟩
  decide

/-- C4 (amended): `remove_all_listeners(event)` with an event argument resets
that event's collection to an empty one but leaves the event key in the
registry (other events are untouched), so the registry can hold an empty
collection afterwards; the key-removal-on-emptying invariant is maintained
only by `_remove_listener` (used by `remove_listener` and the `once`
wrapper), which deletes the event key when its collection empties. -/
theorem c4_amended_empty_entry_remains (st : EventEmitter)
    (event ev2 : String) (f : Key) (hne : ev2 ≠ event) :
    aget? (remove_all_listeners st (Option.some event))._events event =
      Option.some [] ∧
    aget? (remove_all_listeners st (Option.some event))._events ev2 =
      aget? st._events ev2 ∧
    (∀ st2, _remove_listener st event f = Except.ok st2 →
      aget? st2._events event = Option.none ∨
      ∃ od, aget? st2._events event = Option.some od ∧ od ≠ []) := by
  refine ⟨?_, ?_, ?_⟩
  · simp [remove_all_listeners, aget?_aset_self]
  · simp [remove_all_listeners, aget?_aset_other _ _ _ _ hne]
  · intro st2 h
    unfold _remove_listener at h
    cases hev : aget? st._events event with
    | none => simp [hev] at h
    | some od =>
      cases hf : aget? od f with
      | none => simp [hev, hf] at h
      | some v =>
        by_cases hlen : (aerase od f).length = 0
        · simp only [hev, hf, hlen, if_pos] at h
          injection h with h2
          subst h2
          left
          exact aget?_aerase_self st._events event
        · simp only [hev, hf, hlen, if_neg, if_false] at h
          injection h with h2
          subst h2
          right
          refine ⟨aerase od f, ?_, ?_⟩
          · exact aget?_aset_self st._events event (aerase od f)
          · intro hnil
            exact hlen (by simp [hnil])

theorem c4_witness :
    aget? (remove_all_listeners ⟨[("a", [(0, Invocable.plain 0)])]⟩
        (Option.some "a"))._events "a" = Option.some [] ∧
    aget? (remove_all_listeners ⟨[("a", [(0, Invocable.plain 0)])]⟩
        (Option.some "a"))._events "b" =
      aget? ([("a", [(0, Invocable.plain 0)])] :
        List (String × List (Key × Invocable))) "b" := by
  have h := c4_amended_empty_entry_remains
    ⟨[("a", [(0, Invocable.plain 0)])]⟩ "a" "b" 0 (by decide)
  exact ⟨h.1, h.2.1⟩

/-- C5 is refuted by the code: after `on("a", f)` followed by
`remove_all_listeners("a")`, the event `"a"` has zero listeners yet still
appears in `event_names()`. -/
theorem c5_counterexample :
    on_ (fun _ => Behavior.ret) ⟨[]⟩ "a" 0 =
        Outcome.ok ⟨[("a", [(0, Invocable.plain 0)])]⟩ [] 0 ∧
    listeners (remove_all_listeners ⟨[("a", [(0, Invocable.plain 0)])]⟩
        (Option.some "a")) "a" = [] ∧
    event_names (remove_all_listeners ⟨[("a", [(0, Invocable.plain 0)])]⟩
        (Option.some "a")) = ["a"] := by
  refine ⟨?_, by decide, by decide⟩
  decide

/-- C5 (amended): `event_names()` returns exactly the set of registry keys;
an event emptied via `remove_listener` is removed from that set, but an event
cleared via `remove_all_listeners(event)` keeps its (now empty) key, so it
still appears in `event_names()` with no listeners. -/
theorem c5_amended_event_names_are_keys (st : EventEmitter) (event : String)
    (f : Key) :
    (∀ ev, ev ∈ event_names st ↔ aget? st._events ev ≠ Option.none) ∧
    (∀ st2, remove_listener st event f = Except.ok st2 →
        listeners st2 event = [] → event ∉ event_names st2) ∧
    event ∈ event_names (remove_all_listeners st (Option.some event)) ∧
    listeners (remove_all_listeners st (Option.some event)) event = [] := by
  refine ⟨?_, ?_, ?_, ?_⟩
  · intro ev
    exact mem_keys_iff_aget? st._events ev
  · intro st2 h hempty
    unfold remove_listener _remove_listener at h
    cases hev : aget? st._events event with
    | none => simp [hev] at h
    | some od =>
      cases hf : aget? od f with
      | none => simp [hev, hf] at h
      | some v =>
        by_cases hlen : (aerase od f).length = 0
        · simp only [hev, hf, hlen, if_pos] at h
          injection h with h2
          subst h2
          intro hmem
          rw [event_names, mem_keys_iff_aget?] at hmem
          exact hmem (aget?_aerase_self st._events event)
        · simp only [hev, hf, hlen, if_neg, if_false] at h
          injection h with h2
          subst h2
          exfalso
          have hlis : listeners
              (⟨aset st._events event (aerase od f)⟩ : EventEmitter) event =
              (aerase od f).map Prod.fst := by
            simp [listeners, aget?_aset_self]
          rw [hempty] at hlis
          exact hlen (by
            simpa using congrArg List.length hlis.symm)
  · rw [event_names, mem_keys_iff_aget?]
    simp [remove_all_listeners, aget?_aset_self]
  · simp [listeners, remove_all_listeners, aget?_aset_self]

theorem c5_witness :
    "a" ∈ event_names (remove_all_listeners
        ⟨[("a", [(0, Invocable.plain 0)])]⟩ (Option.some "a")) ∧
    listeners (remove_all_listeners ⟨[("a", [(0, Invocable.plain 0)])]⟩
        (Option.some "a")) "a" = [] := by
  have h := c5_amended_event_names_are_keys
    ⟨[("a", [(0, Invocable.plain 0)])]⟩ "a" 0
  exact ⟨h.2.2.1, h.2.2.2⟩

/-- C6: `remove_listener(event, f)` when `f` was never registered under
`event` (including when `event` has no entry at all) raises the key-not-found
condition (`KeyError` from the underlying container) and performs no mutation:
in the embedding the error is returned before any new state is produced,
exactly as the source raises from `self._events[event].pop(f)` before any
mutation happens. -/
theorem c6_remove_unregistered_keyerror (st : EventEmitter) (event : String)
    (f : Key)
    (h : (aget? st._events event).bind (fun od => aget? od f) =
      Option.none) :
    remove_listener st event f = Except.error Exc.keyError := by
  cases hev : aget? st._events event with
  | none => simp [remove_listener, _remove_listener, hev]
  | some od =>
    rw [hev] at h
    simp only [Option.some_bind] at h
    simp [remove_listener, _remove_listener, hev, h]

theorem c6_witness :
    remove_listener ⟨[("a", [(0, Invocable.plain 0)])]⟩ "a" 1 =
      Except.error Exc.keyError ∧
    remove_listener ⟨[("a", [(0, Invocable.plain 0)])]⟩ "b" 0 =
      Except.error Exc.keyError := by
  exact ⟨c6_remove_unregistered_keyerror ⟨[("a", [(0, Invocable.plain 0)])]⟩
      "a" 1 (by decide),
    c6_remove_unregistered_keyerror ⟨[("a", [(0, Invocable.plain 0)])]⟩
      "b" 0 (by decide)⟩

/-- `emit` on an event with exactly two plain handlers that return normally:
both are invoked, in registration order, each exactly once. -/
theorem emit_single_plain_pair (env : Env) (st : EventEmitter)
    (event : String) (f g : Key) (args : List Arg)
    (kwargs : List (String × Arg))
    (h : aget? st._events event =
      Option.some [(f, Invocable.plain f), (g, Invocable.plain g)])
    (h3 : env f = Behavior.ret) (h4 : env g = Behavior.ret) :
    emit env st event args kwargs =
      Outcome.ok st [⟨f, args, kwargs⟩, ⟨g, args, kwargs⟩] true := by
  simp [emit, _call_handlers, h, runFuncs, callInvocable, h3, h4]

/-- `on` with no `new_listener` handlers, for an arbitrary (possibly already
populated) target event. -/
theorem on_quiet_insert (env : Env) (st : EventEmitter) (event : String)
    (f : Key) (h2 : (aget? st._events "new_listener").getD [] = []) :
    on_ env st event f =
      Outcome.ok (insertListener st event f (Invocable.plain f)) [] f := by
  simp [on_, add_listener,
    add_event_handler_quiet env st event f (Invocable.plain f) h2]

/-- C7: Registering the same listener `f` a second time under the same event
via `on` is idempotent for dispatch — after `on(event, f)`, `on(event, g)`,
`on(event, f)` the registry holds one entry for `f`, still in first position
(overwrite-in-place, no re-ordering), and `emit` invokes `f` exactly once,
then `g` exactly once, returning `True`. -/
theorem c7_duplicate_on_overwrites_in_place (env : Env) (st : EventEmitter)
    (event : String) (f g : Key) (args : List Arg)
    (kwargs : List (String × Arg))
    (h1 : aget? st._events event = Option.none)
    (h2 : (aget? st._events "new_listener").getD [] = [])
    (hev : event ≠ "new_listener") (hfg : f ≠ g)
    (h3 : env f = Behavior.ret) (h4 : env g = Behavior.ret) :
    on_ env st event f =
      Outcome.ok ⟨aset st._events event [(f, Invocable.plain f)]⟩ [] f ∧
    on_ env ⟨aset st._events event [(f, Invocable.plain f)]⟩ event g =
      Outcome.ok ⟨aset (aset st._events event [(f, Invocable.plain f)]) event
        [(f, Invocable.plain f), (g, Invocable.plain g)]⟩ [] g ∧
    on_ env ⟨aset (aset st._events event [(f, Invocable.plain f)]) event
        [(f, Invocable.plain f), (g, Invocable.plain g)]⟩ event f =
      Outcome.ok ⟨aset (aset (aset st._events event [(f, Invocable.plain f)])
          event [(f, Invocable.plain f), (g, Invocable.plain g)]) event
        [(f, Invocable.plain f), (g, Invocable.plain g)]⟩ [] f ∧
    listeners ⟨aset (aset (aset st._events event [(f, Invocable.plain f)])
        event [(f, Invocable.plain f), (g, Invocable.plain g)]) event
      [(f, Invocable.plain f), (g, Invocable.plain g)]⟩ event = [f, g] ∧
    emit env ⟨aset (aset (aset st._events event [(f, Invocable.plain f)])
        event [(f, Invocable.plain f), (g, Invocable.plain g)]) event
      [(f, Invocable.plain f), (g, Invocable.plain g)]⟩ event args kwargs =
      Outcome.ok ⟨aset (aset (aset st._events event
          [(f, Invocable.plain f)]) event
          [(f, Invocable.plain f), (g, Invocable.plain g)]) event
        [(f, Invocable.plain f), (g, Invocable.plain g)]⟩
        [⟨f, args, kwargs⟩, ⟨g, args, kwargs⟩] true := by
  have hnl : ("new_listener" : String) ≠ event := Ne.symm hev
  have h2b : (aget? (aset st._events event [(f, Invocable.plain f)])
      "new_listener").getD [] = [] := by
    rw [aget?_aset_other _ _ _ _ hnl]
    exact h2
  have h2c : (aget? (aset (aset st._events event [(f, Invocable.plain f)])
      event [(f, Invocable.plain f), (g, Invocable.plain g)])
      "new_listener").getD [] = [] := by
    rw [aget?_aset_other _ _ _ _ hnl]
    exact h2b
  have hgf : g ≠ f := Ne.symm hfg
  refine ⟨on_quiet env st event f h1 h2, ?_, ?_, ?_, ?_⟩
  · have hins := on_quiet_insert env
      ⟨aset st._events event [(f, Invocable.plain f)]⟩ event g h2b
    rw [hins]
    simp [insertListener, aget?_aset_self, aset, hgf]
  · have hins := on_quiet_insert env
      ⟨aset (aset st._events event [(f, Invocable.plain f)]) event
        [(f, Invocable.plain f), (g, Invocable.plain g)]⟩ event f h2c
    rw [hins]
    simp [insertListener, aget?_aset_self, aset]
  · simp [listeners, aget?_aset_self]
  · exact emit_single_plain_pair env _ event f g args kwargs
      (by simp [aget?_aset_self]) h3 h4

theorem c7_witness :
    on_ (fun _ => Behavior.ret) ⟨[]⟩ "e" 1 =
      Outcome.ok ⟨[("e", [(1, Invocable.plain 1)])]⟩ [] 1 ∧
    listeners ⟨aset (aset (aset ([] :
        List (String × List (Key × Invocable))) "e"
        [(1, Invocable.plain 1)]) "e"
        [(1, Invocable.plain 1), (2, Invocable.plain 2)]) "e"
      [(1, Invocable.plain 1), (2, Invocable.plain 2)]⟩ "e" = [1, 2] ∧
    emit (fun _ => Behavior.ret) ⟨aset (aset (aset ([] :
        List (String × List (Key × Invocable))) "e"
        [(1, Invocable.plain 1)]) "e"
        [(1, Invocable.plain 1), (2, Invocable.plain 2)]) "e"
      [(1, Invocable.plain 1), (2, Invocable.plain 2)]⟩ "e" [Arg.nat 0] [] =
      Outcome.ok ⟨aset (aset (aset ([] :
          List (String × List (Key × Invocable))) "e"
          [(1, Invocable.plain 1)]) "e"
          [(1, Invocable.plain 1), (2, Invocable.plain 2)]) "e"
        [(1, Invocable.plain 1), (2, Invocable.plain 2)]⟩
        [⟨1, [Arg.nat 0], []⟩, ⟨2, [Arg.nat 0], []⟩] true := by
  have h := c7_duplicate_on_overwrites_in_place (fun _ => Behavior.ret) ⟨[]⟩
    "e" 1 2 [Arg.nat 0] [] (by decide) (by decide) (by decide) (by decide)
    rfl rfl
  exact ⟨h.1, h.2.2.2.1, h.2.2.2.2⟩

/-- C8: Registration (here via `on`; `add_listener` and `once` share
`_add_event_handler`) first emits `new_listener` with arguments
`(event, listener)` and only then inserts: with a handler `w` attached to
`new_listener`, `on(event, f)` invokes `w` once with `(event, f)` while the
dispatch state is still the pre-insert state `st`, in which `f` is not in
`listeners(event)` and `emit(event)` invokes nothing (returns `False`); only
the returned final state carries `f`. -/
theorem c8_new_listener_fires_before_insert (env : Env) (st : EventEmitter)
    (event : String) (f w : Key) (args : List Arg)
    (kwargs : List (String × Arg))
    (h1 : aget? st._events event = Option.none)
    (h2 : aget? st._events "new_listener" =
      Option.some [(w, Invocable.plain w)])
    (h3 : env w = Behavior.ret) (h5 : event ≠ "error") :
    on_ env st event f =
      Outcome.ok (insertListener st event f (Invocable.plain f))
        [⟨w, [Arg.str event, Arg.fn f], []⟩] f ∧
    f ∉ listeners st event ∧
    emit env st event args kwargs = Outcome.ok st [] false ∧
    listeners (insertListener st event f (Invocable.plain f)) event =
      [f] := by
  have hemit := emit_single_plain env st "new_listener" w
    [Arg.str event, Arg.fn f] [] h2 h3
  refine ⟨?_, ?_, ?_, ?_⟩
  · simp [on_, add_listener, _add_event_handler, hemit]
  · simp [listeners, h1]
  · exact emit_no_handlers_ok env st event args kwargs (by simp [h1]) h5
  · simp [insertListener, listeners, h1, aget?_aset_self, aset]

theorem c8_witness :
    on_ (fun _ => Behavior.ret)
        ⟨[("new_listener", [(7, Invocable.plain 7)])]⟩ "x" 3 =
      Outcome.ok (insertListener
          ⟨[("new_listener", [(7, Invocable.plain 7)])]⟩ "x" 3
          (Invocable.plain 3))
        [⟨7, [Arg.str "x", Arg.fn 3], []⟩] 3 ∧
    3 ∉ listeners ⟨[("new_listener", [(7, Invocable.plain 7)])]⟩ "x" ∧
    emit (fun _ => Behavior.ret)
        ⟨[("new_listener", [(7, Invocable.plain 7)])]⟩ "x" [] [] =
      Outcome.ok ⟨[("new_listener", [(7, Invocable.plain 7)])]⟩ [] false ∧
    listeners (insertListener
        ⟨[("new_listener", [(7, Invocable.plain 7)])]⟩ "x" 3
        (Invocable.plain 3)) "x" = [3] := by
  exact c8_new_listener_fires_before_insert (fun _ => Behavior.ret)
    ⟨[("new_listener", [(7, Invocable.plain 7)])]⟩ "x" 3 7 [] []
    (by decide) (by decide) rfl (by decide)

/-- C9: `listeners(event)` returns the original callables in registration
order: an emitter with no registrations for `event` yields `[]`; after
`once(event, f)` the registry's value for `f` is the generated wrapper, yet
`listeners` yields the original `f`; after a further `on(event, g)` it
yields `[f, g]` in registration order. -/
theorem c9_listeners_are_original_keys (env : Env) (st : EventEmitter)
    (event : String) (f g : Key)
    (h1 : aget? st._events event = Option.none)
    (h2 : (aget? st._events "new_listener").getD [] = [])
    (hev : event ≠ "new_listener") (hfg : f ≠ g) :
    listeners st event = [] ∧
    once env st event f =
      Outcome.ok ⟨aset st._events event [(f, Invocable.wrapper event f)]⟩
        [] f ∧
    listeners ⟨aset st._events event [(f, Invocable.wrapper event f)]⟩
      event = [f] ∧
    on_ env ⟨aset st._events event [(f, Invocable.wrapper event f)]⟩ event
        g =
      Outcome.ok ⟨aset (aset st._events event
          [(f, Invocable.wrapper event f)]) event
        [(f, Invocable.wrapper event f), (g, Invocable.plain g)]⟩ [] g ∧
    listeners ⟨aset (aset st._events event
        [(f, Invocable.wrapper event f)]) event
      [(f, Invocable.wrapper event f), (g, Invocable.plain g)]⟩ event =
      [f, g] := by
  have hnl : ("new_listener" : String) ≠ event := Ne.symm hev
  have h2b : (aget? (aset st._events event
      [(f, Invocable.wrapper event f)]) "new_listener").getD [] = [] := by
    rw [aget?_aset_other _ _ _ _ hnl]
    exact h2
  have hgf : g ≠ f := Ne.symm hfg
  refine ⟨by simp [listeners, h1], once_quiet env st event f h1 h2, ?_, ?_,
    ?_⟩
  · simp [listeners, aget?_aset_self]
  · have hins := on_quiet_insert env
      ⟨aset st._events event [(f, Invocable.wrapper event f)]⟩ event g h2b
    rw [hins]
    simp [insertListener, aget?_aset_self, aset, hgf]
  · simp [listeners, aget?_aset_self]

theorem c9_witness :
    listeners ⟨[]⟩ "q" = [] ∧
    once (fun _ => Behavior.ret) ⟨[]⟩ "q" 5 =
      Outcome.ok ⟨[("q", [(5, Invocable.wrapper "q" 5)])]⟩ [] 5 ∧
    listeners ⟨[("q", [(5, Invocable.wrapper "q" 5)])]⟩ "q" = [5] := by
  have h := c9_listeners_are_original_keys (fun _ => Behavior.ret) ⟨[]⟩ "q"
    5 6 (by decide) (by decide) (by decide) (by decide)
  exact ⟨h.1, h.2.1, h.2.2.1⟩

/-- Environment for refuting C10: callable `9` raises user exception `7`,
every other callable returns normally. -/
def envC10 : Env := fun k => if k = 9 then Behavior.raiseExc 7 else Behavior.ret

/-- C10 is refuted by the code: register handler `9` on `new_listener` via
`once`, where `9` raises.  During `on("x", 5)` the `once` wrapper first
removes handler `9` from the registry and then delegates to it, which raises;
the exception propagates out of `on` and `5` is indeed not added, but the
registry is now empty — NOT "exactly as it was before the registration
call". -/
theorem c10_counterexample :
    once envC10 ⟨[]⟩ "new_listener" 9 =
      Outcome.ok
        ⟨[("new_listener", [(9, Invocable.wrapper "new_listener" 9)])]⟩
        [] 9 ∧
    on_ envC10
        ⟨[("new_listener", [(9, Invocable.wrapper "new_listener" 9)])]⟩
        "x" 5 =
      Outcome.exn ⟨[]⟩ [⟨9, [Arg.str "x", Arg.fn 5], []⟩] (Exc.user 7) ∧
    (⟨[]⟩ : EventEmitter) ≠
      ⟨[("new_listener", [(9, Invocable.wrapper "new_listener" 9)])]⟩ := by
  refine ⟨rfl, rfl, ?_⟩
  decide

/-- C10 (amended): if the `new_listener` emission performed by a registration
raises, the exception propagates to the registering caller, the registration
call returns exactly the emission's exceptional outcome (for `on`,
`add_listener` and `once` alike), and `f` is not added — it is absent from
`listeners(event)` of the propagated state, because dispatch can only shrink
the registry, never insert.  The registry is NOT necessarily exactly as
before: it reflects the effects of the `new_listener` handlers that ran (a
`once`-registered handler removes itself before raising); when every
`new_listener` handler is a plain `on`-registered callable, the registry is
exactly the pre-registration registry. -/
theorem c10_amended_raise_aborts_insert (env : Env) (st : EventEmitter)
    (event : String) (f : Key) (st2 : EventEmitter) (tr : List Call)
    (e : Exc)
    (h1 : emit env st "new_listener" [Arg.str event, Arg.fn f] [] =
      Outcome.exn st2 tr e)
    (h2 : f ∉ listeners st event) :
    on_ env st event f = Outcome.exn st2 tr e ∧
    add_listener env st event f = Outcome.exn st2 tr e ∧
    once env st event f = Outcome.exn st2 tr e ∧
    f ∉ listeners st2 event ∧
    (∀ od, aget? st._events "new_listener" = Option.some od →
        (∀ p ∈ od, ∃ k, p.2 = Invocable.plain k) → st2 = st) := by
  refine ⟨?_, ?_, ?_, ?_, ?_⟩
  · simp [on_, add_listener, _add_event_handler, h1]
  · simp [add_listener, _add_event_handler, h1]
  · simp [once, _add_event_handler, h1]
  · intro hmem
    have hsub := emit_sub env st "new_listener" [Arg.str event, Arg.fn f] []
    rw [h1] at hsub
    simp only [Outcome.state] at hsub
    exact h2 (hsub event f hmem)
  · intro od hod hall
    have hst := emit_plain_state env st "new_listener"
      [Arg.str event, Arg.fn f] [] od hod hall
    rw [h1] at hst
    simpa [Outcome.state] using hst

theorem c10_witness :
    on_ envC10
        ⟨[("new_listener", [(11, Invocable.plain 11),
          (9, Invocable.plain 9)])]⟩ "x" 5 =
      Outcome.exn
        ⟨[("new_listener", [(11, Invocable.plain 11),
          (9, Invocable.plain 9)])]⟩
        [⟨11, [Arg.str "x", Arg.fn 5], []⟩, ⟨9, [Arg.str "x", Arg.fn 5], []⟩]
        (Exc.user 7) ∧
    5 ∉ listeners ⟨[("new_listener", [(11, Invocable.plain 11),
        (9, Invocable.plain 9)])]⟩ "x" := by
  have h := c10_amended_raise_aborts_insert envC10
    ⟨[("new_listener", [(11, Invocable.plain 11), (9, Invocable.plain 9)])]⟩
    "x" 5
    ⟨[("new_listener", [(11, Invocable.plain 11), (9, Invocable.plain 9)])]⟩
    [⟨11, [Arg.str "x", Arg.fn 5], []⟩, ⟨9, [Arg.str "x", Arg.fn 5], []⟩]
    (Exc.user 7) rfl (by decide)
  exact ⟨h.1, h.2.2.2.1⟩
